import Mathlib

set_option autoImplicit false

/-!
Shallow embedding of the concurrency/messaging core of the saucer webview
library (repository `skjsjhb/saucers`): the byte-buffer `stash`, the event
registry, the main-loop dispatcher pattern, the rflpp message serializer,
the scheme-interception request headers, the C-binding message handler and
the Qt webview `execute`/`handle_scheme` operations.
-/

namespace Saucer

/-- Byte payloads (`T` elements of a `stash<T>`) are modelled as lists of `Nat`. -/
abbrev Bytes : Type := List Nat

/-- Shared state backing every `lazy` stash. `stash<T>::lazy(Callback)`
(src/include/saucer/stash/stash.inl) wraps the callback in
`std::async(std::launch::deferred, ...).share()`, so all copies of the stash hold
one `std::shared_future` cell. `thunk c` is the value the deferred callback of
cell `c` produces, `cache c` its memoized result (if it has run), and `runs c`
counts how many times the callback has executed. -/
structure LazyHeap where
  thunk : Nat → Bytes
  cache : Nat → Option Bytes
  runs : Nat → Nat

namespace stash

/-- The ownership alternatives of `stash<T>::variant_t`: an owning container,
a non-owning view into memory owned elsewhere, or a handle (cell index) to a
shared deferred computation. -/
inductive variant_t where
  | owning (bytes : Bytes)
  | viewing (bytes : Bytes)
  | lazy (cell : Nat)

/-- Modelled from the spec: `shared_future::get` on a deferred `std::async`
task is C++ standard-library behaviour, not code of this repository. Per the
spec, the first access computes and memoizes and all later accesses (from any
copy sharing the cell) observe the same cached result. -/
def force (h : LazyHeap) (cell : Nat) : Bytes × LazyHeap :=
  match h.cache cell with
  | some v => (v, h)
  | none =>
      (h.thunk cell,
        { thunk := h.thunk
          cache := fun c => if c = cell then some (h.thunk cell) else h.cache c
          runs := fun c => if c = cell then h.runs c + 1 else h.runs c })

/-- `stash<T>::data` (stash.inl): visits the variant; the owning and viewing
alternatives answer directly, the lazy alternative forces the shared cell and
asks the produced stash. -/
def data : variant_t → LazyHeap → Bytes × LazyHeap
  | .owning bytes, h => (bytes, h)
  | .viewing bytes, h => (bytes, h)
  | .lazy cell, h => force h cell

/-- `stash<T>::size` (stash.inl): same visitor shape as `data`. -/
def size : variant_t → LazyHeap → Nat × LazyHeap
  | .owning bytes, h => (bytes.length, h)
  | .viewing bytes, h => (bytes.length, h)
  | .lazy cell, h =>
      let r := force h cell
      (r.1.length, r.2)

/-- `stash<T>::empty` (stash.inl): default-constructs the variant, an empty
owning container. -/
def empty : variant_t := .owning []

/-- `stash<T>::lazy(lazy_t)` (stash.inl): wraps an already shared cell.
A copy of the resulting stash holds the same cell index. -/
def lazy (cell : Nat) : variant_t := .lazy cell

/-- One observation through a public accessor of some stash (possibly a copy
sharing a lazy cell with another stash). -/
inductive access where
  | vdata (s : variant_t)
  | vsize (s : variant_t)

/-- The heap after one accessor call. -/
def step (h : LazyHeap) : access → LazyHeap
  | .vdata s => (data s h).2
  | .vsize s => (size s h).2

/-- The heap after a whole sequence of accessor calls. -/
def run (h : LazyHeap) (ops : List access) : LazyHeap := ops.foldl step h

/-- The invariant a lazy cell keeps while accessors run: its thunk is fixed
and either it has never run (no cache) or it has run exactly once, caching the
thunk's value. -/
def cell_inv (h₀ h : LazyHeap) (c : Nat) : Prop :=
  h.thunk c = h₀.thunk c ∧
    ((h.cache c = none ∧ h.runs c = 0) ∨
      (h.cache c = some (h₀.thunk c) ∧ h.runs c = 1))

/-- A concrete heap used to instantiate the lazy-stash theorem. -/
def demoHeap : LazyHeap :=
  { thunk := fun _ => [1, 2, 3], cache := fun _ => none, runs := fun _ => 0 }

end stash

namespace events

/-- A registered listener of one event slot: its numeric id, its callback and
its one-shot flag. -/
structure listener (α β : Type) where
  id : Nat
  fn : α → β
  one_shot : Bool

/-- Modelled from the spec: the event library (ereignis) holding the slots is
not code under the repository's files, only its callers are
(src/unnamed/part_010, src/unnamed/part_014). Per the spec an event slot
holds an ordered list of listeners (insertion order significant) and hands
out fresh numeric ids. -/
structure slot (α β : Type) where
  listeners : List (listener α β)
  next_id : Nat

/-- Modelled from the spec: `on`/`add` appends a repeatable listener and
returns its removable id. -/
def add {α β : Type} (s : slot α β) (f : α → β) : Nat × slot α β :=
  (s.next_id, ⟨s.listeners ++ [⟨s.next_id, f, false⟩], s.next_id + 1⟩)

/-- Modelled from the spec: `once` appends a listener auto-removed after its
first invocation. -/
def once {α β : Type} (s : slot α β) (f : α → β) : slot α β :=
  ⟨s.listeners ++ [⟨s.next_id, f, true⟩], s.next_id + 1⟩

/-- Modelled from the spec: `fire` invokes all current listeners in
registration order, producing the trace of `(id, answer)` pairs, and then
drops the one-shot listeners. -/
def fire {α β : Type} (s : slot α β) (a : α) : List (Nat × β) × slot α β :=
  (s.listeners.map fun l => (l.id, l.fn a),
    ⟨s.listeners.filter fun l => !l.one_shot, s.next_id⟩)

/-- Modelled from the spec: `fire_blocking` (the `until(policy::block)` veto
check of src/unnamed/part_010) runs every listener, collecting each boolean
answer, and OR-reduces the aggregate veto. -/
def fire_blocking {α : Type} (s : slot α Bool) (a : α) :
    Bool × List (Nat × Bool) × slot α Bool :=
  let r := fire s a
  (r.1.any (fun p => p.2), r.1, r.2)

/-- Repeated firing: the traces of every `fire` in sequence and the final slot. -/
def fire_many {α β : Type} : slot α β → List α → List (List (Nat × β)) × slot α β
  | s, [] => ([], s)
  | s, a :: args =>
      let r := fire s a
      let rest := fire_many r.2 args
      (r.1 :: rest.1, rest.2)

/-- How many times the listener with id `i` was invoked over a list of traces. -/
def calls_to {β : Type} (i : Nat) (traces : List (List (Nat × β))) : Nat :=
  (traces.map fun t => t.countP fun p => p.1 = i).sum

/-- How many listeners with id `i` a slot currently holds. -/
def holds {α β : Type} (i : Nat) (s : slot α β) : Nat :=
  s.listeners.countP fun l => l.id = i

/-- Well-formedness: every registered listener's id was handed out before the
next fresh id. -/
def wf {α β : Type} (s : slot α β) : Prop :=
  ∀ l ∈ s.listeners, l.id < s.next_id

/-- A concrete three-listener blocking slot whose listeners answer
`[false, true, false]`. -/
def demoBlockSlot : slot Unit Bool :=
  ⟨[⟨0, fun _ => false, false⟩, ⟨1, fun _ => true, false⟩, ⟨2, fun _ => false, false⟩], 3⟩

/-- A concrete one-listener slot used to instantiate the ordering/once theorem. -/
def demoSlot : slot Nat Nat :=
  ⟨[⟨0, fun x => x, false⟩], 1⟩

end events

namespace application

/-- `application::thread_safe` (src/saucer-bindings/saucer/src/module/
qt.module.stable.cpp, cocoa segment): compares the stored main-loop thread id
with the calling thread's id. -/
def thread_safe (main tid : Nat) : Bool := main = tid

/-- What a call observably did on the way to the main loop. -/
inductive dispatch_event where
  | enqueued
  | ran_in_place

/-- Modelled from the spec: `application::dispatch` itself is not under the
repository's files, only callers of the guard-and-forward pattern are
(src/src/qt.desktop.cpp, src/src/qt.pdf.cpp). Per the spec, `dispatch` run
from the main-loop thread executes the work synchronously in place (no
enqueue); from any other thread it enqueues the work, the main loop executes
it on the main thread, and the caller receives its result. The work receives
the id of the thread actually executing it and reports its own event trace. -/
def dispatch {σ α : Type} (main tid : Nat)
    (work : Nat → σ → α × σ × List dispatch_event) (st : σ) :
    α × σ × List dispatch_event :=
  if thread_safe main tid then work tid st
  else
    let r := work main st
    (r.1, r.2.1, dispatch_event.enqueued :: r.2.2)

/-- The guard-and-forward pattern every public operation on main-loop-owned
state uses (`desktop::open` in src/src/qt.desktop.cpp, every `webview` method
in src/src/qt.pdf.cpp): on the main thread the body runs in place; from any
other thread the operation re-invokes itself on the main thread and forwards
the result, which is exactly `dispatch` applied to the operation itself. -/
def guarded {σ α : Type} (main : Nat) (body : σ → α × σ) (tid : Nat) (st : σ) :
    α × σ × List dispatch_event :=
  if thread_safe main tid then
    let r := body st
    (r.1, r.2, [dispatch_event.ran_in_place])
  else
    let r := guarded main body main st
    (r.1, r.2.1, dispatch_event.enqueued :: r.2.2)
termination_by (if thread_safe main tid then 0 else 1)
decreasing_by simp_all [thread_safe]

end application

namespace rflpp

/-- The generic structured value (`rfl::Generic`) the serializer passes
arguments and results through. -/
inductive Generic where
  | null
  | boolean (b : Bool)
  | number (n : Int)
  | string (s : String)
  | array (elems : List Generic)
  | object (fields : List (String × Generic))

/-- Reading a named field of a JSON object (first occurrence wins). -/
def get_field : List (String × Generic) → String → Option Generic
  | [], _ => none
  | (k, v) :: rest, name => if k = name then some v else get_field rest name

/-- `function_data`: an inbound function call, `{id, name, params}`. -/
structure function_data where
  id : Nat
  name : String
  params : Generic

/-- `result_data`: an inbound call result, `{id, result}`. -/
structure result_data where
  id : Nat
  result : Generic

/-- The upper bound of a `std::uint64_t` id field. -/
def uint64_bound : Nat := 2 ^ 64

/-- Modelled from the spec: `rfl::json::read<function_data>` is reflect-cpp
library code, not under the repository's files; its required shape is the
`rfl::Reflector<function_data>::ReflType` of
src/saucer-bindings/saucer/src/rfl.serializer.cpp: an object carrying a
boolean `saucer:call` tag, a `uint64` id, a string name and arbitrary
params. Any other value is a read error (`none`). -/
def read_function_data (j : Generic) : Option function_data :=
  match j with
  | .object fields =>
      match get_field fields "saucer:call", get_field fields "id",
          get_field fields "name", get_field fields "params" with
      | some (.boolean _), some (.number n), some (.string name), some params =>
          if 0 ≤ n ∧ n < (uint64_bound : Int) then some ⟨n.toNat, name, params⟩ else none
      | _, _, _, _ => none
  | _ => none

/-- Modelled from the spec: `rfl::json::read<result_data>` likewise follows
`rfl::Reflector<result_data>::ReflType` (rfl.serializer.cpp): an object
carrying a boolean `saucer:resolve` tag, a `uint64` id and an arbitrary
result. -/
def read_result_data (j : Generic) : Option result_data :=
  match j with
  | .object fields =>
      match get_field fields "saucer:resolve", get_field fields "id",
          get_field fields "result" with
      | some (.boolean _), some (.number n), some result =>
          if 0 ≤ n ∧ n < (uint64_bound : Int) then some ⟨n.toNat, result⟩ else none
      | _, _, _ => none
  | _ => none

/-- The serializer's parse outcome: a function call, a call result, or the
`std::monostate` alternative for anything unrecognized. -/
inductive parse_result where
  | function_call (d : function_data)
  | call_result (d : result_data)
  | unrecognized

/-- The wire input as handed to `serializer::parse`: `some j` for a string
whose JSON content is `j`, `none` for a string that is not JSON at all. -/
abbrev wire : Type := Option Generic

/-- `parse_as<T>` (rfl.serializer.cpp): a failed read becomes `std::nullopt`
rather than an error. -/
def parse_as_function (data : wire) : Option function_data :=
  data.bind read_function_data

/-- `parse_as<result_data>` (rfl.serializer.cpp). -/
def parse_as_result (data : wire) : Option result_data :=
  data.bind read_result_data

/-- `serializer::parse` (rfl.serializer.cpp): try the call envelope, then the
result envelope, and fall back to `std::monostate`. -/
def parse (data : wire) : parse_result :=
  match parse_as_function data with
  | some d => .function_call d
  | none =>
      match parse_as_result data with
      | some d => .call_result d
      | none => .unrecognized

/-- A well-formed call envelope with the given id, name and params, in the
shape the `ReflType` of `function_data` declares. -/
def call_envelope (id : Nat) (name : String) (params : Generic) : Generic :=
  .object [("saucer:call", .boolean true), ("id", .number id),
    ("name", .string name), ("params", params)]

/-- A well-formed result envelope with the given id and result, in the shape
the `ReflType` of `result_data` declares. -/
def result_envelope (id : Nat) (result : Generic) : Generic :=
  .object [("saucer:resolve", .boolean true), ("id", .number id),
    ("result", result)]

end rflpp

namespace scheme

/-- One `emplace` into the `std::map<std::string, std::string>` that
`request::headers` builds: the pair is inserted only when no pair with the
exact same key is present. -/
def emplace (m : List (String × String)) (k v : String) : List (String × String) :=
  if m.any fun p => p.1 = k then m else m ++ [(k, v)]

/-- `scheme::request::headers` (src/unnamed/part_009 and
src/saucer-bindings/saucer/src/wk.scheme.mm): the platform hands over its
header `(name, value)` pairs one by one (`soup_message_headers_foreach` /
`enumerateKeysAndObjectsUsingBlock`) and each is emplaced into a fresh map. -/
def headers (platform : List (String × String)) : List (String × String) :=
  platform.foldl (fun m p => emplace m p.1 p.2) []

/-- ASCII lower-casing of one character, to state what a case-normalized key
would be. -/
def ascii_lower (c : Char) : Char :=
  if 'A' ≤ c ∧ c ≤ 'Z' then Char.ofNat (c.toNat + 32) else c

/-- Two header names differ only in letter case when their ASCII
lower-casings agree. -/
def same_name_modulo_case (a b : String) : Bool :=
  a.data.map ascii_lower = b.data.map ascii_lower

end scheme

namespace bindings

/-- What `saucer_handle::on_message` consulted, in order. -/
inductive handler where
  | base
  | plain
  | with_arg

/-- The state of a `saucer_handle` (src/unnamed/part_001): the base
`saucer::webview::on_message` behaviour and the two optional user-installed
callbacks with the raw argument pointer (a null pointer is `none`). The
opaque argument is modelled as a `Nat`. -/
structure saucer_handle where
  base_on_message : String → Bool
  m_on_message : Option (String → Bool)
  m_on_message_with_arg : Option (String → Nat → Bool)
  m_on_message_arg : Option Nat

/-- `saucer_handle::on_message` (src/unnamed/part_001): the base webview
handler first; if it does not consume the message, the plain callback if
set; otherwise the with-argument callback when both the callback and its
argument are non-null; otherwise `false`. The returned list records which
handlers ran, in order. -/
def on_message (h : saucer_handle) (message : String) : Bool × List handler :=
  if h.base_on_message message then (true, [.base])
  else
    match h.m_on_message with
    | some cb => (cb message, [.base, .plain])
    | none =>
        match h.m_on_message_with_arg, h.m_on_message_arg with
        | some cb, some arg => (cb message arg, [.base, .with_arg])
        | _, _ => (false, [.base])

/-- A handle whose base handler consumes everything. -/
def demoHandleBase : saucer_handle :=
  ⟨fun _ => true, some fun _ => false, some fun _ _ => false, some 7⟩

/-- A handle with only the plain callback installed. -/
def demoHandlePlain : saucer_handle :=
  ⟨fun _ => false, some fun m => m = "ping", none, none⟩

/-- A handle with the with-argument callback and its argument installed. -/
def demoHandleArg : saucer_handle :=
  ⟨fun _ => false, none, some fun _ a => a = 7, some 7⟩

/-- A handle with a with-argument callback but a null argument pointer. -/
def demoHandleNullArg : saucer_handle :=
  ⟨fun _ => false, none, some fun _ _ => true, none⟩

end bindings

namespace webview

/-- The main-thread-owned webview state `webview::execute` touches
(src/src/qt.pdf.cpp): whether the DOM finished loading, the scripts queued
until DOM-ready (`m_impl->pending`) and the scripts handed to
`runJavaScript`. -/
structure exec_state where
  dom_loaded : Bool
  pending : List String
  ran : List String

/-- `webview::execute` (src/src/qt.pdf.cpp), main-thread body: before
DOM-ready the code is appended to the pending queue and not run; afterwards
it is handed to `runJavaScript`. -/
def execute (st : exec_state) (code : String) : exec_state :=
  if !st.dom_loaded then { st with pending := st.pending ++ [code] }
  else { st with ran := st.ran ++ [code] }

/-- The scheme registry state `webview::handle_scheme` touches
(src/src/qt.pdf.cpp): `m_impl->schemes` (name to handler object) and the
installations forwarded to `installUrlSchemeHandler`. Handler objects are
numbered by `next_handler`; the resolver each carries is opaque here. -/
structure scheme_state where
  schemes : List (String × Nat)
  installed : List (String × Nat)
  next_handler : Nat

/-- `std::unordered_map::contains` on the scheme registry. -/
def contains (m : List (String × Nat)) (name : String) : Bool :=
  m.any fun p => p.1 = name

/-- `webview::handle_scheme` (src/src/qt.pdf.cpp), main-thread body: a name
already registered returns at once; otherwise a handler is constructed,
emplaced under the name, and installed with the platform. -/
def handle_scheme (st : scheme_state) (name : String) : scheme_state :=
  if contains st.schemes name then st
  else
    { schemes := st.schemes ++ [(name, st.next_handler)]
      installed := st.installed ++ [(name, st.next_handler)]
      next_handler := st.next_handler + 1 }

/-- The scheme names registered so far. -/
def scheme_names (st : scheme_state) : List String :=
  st.schemes.map fun p => p.1

/-- A concrete state used to instantiate the theorems. -/
def demoSchemes : scheme_state :=
  ⟨[("saucer", 0)], [("saucer", 0)], 1⟩

/-- A concrete pre-DOM-ready webview state. -/
def demoExec : exec_state :=
  ⟨false, ["early"], []⟩

end webview

namespace stash

theorem force_fixes_thunk (h : LazyHeap) (c c' : Nat) :
    (force h c').2.thunk c = h.thunk c := by
  unfold force
  cases h.cache c' <;> simp

theorem cell_inv_init (h : LazyHeap) (c : Nat) (hc : h.cache c = none)
    (hr : h.runs c = 0) : cell_inv h h c :=
  ⟨rfl, Or.inl ⟨hc, hr⟩⟩

theorem cell_inv_force (h₀ h : LazyHeap) (c c' : Nat) (hinv : cell_inv h₀ h c) :
    cell_inv h₀ (force h c').2 c := by
  obtain ⟨ht, hcase⟩ := hinv
  unfold force
  cases hcc : h.cache c' with
  | some v => exact ⟨ht, hcase⟩
  | none =>
      by_cases hEq : c = c'
      · subst hEq
        rcases hcase with ⟨hn, hr⟩ | ⟨hs, hr⟩
        · exact ⟨ht, Or.inr ⟨by simp [ht], by simp [hr]⟩⟩
        · rw [hs] at hcc; cases hcc
      · refine ⟨ht, ?_⟩
        rcases hcase with ⟨hn, hr⟩ | ⟨hs, hr⟩
        · exact Or.inl ⟨by simp [hEq, hn], by simp [hEq, hr]⟩
        · exact Or.inr ⟨by simp [hEq, hs], by simp [hEq, hr]⟩

theorem cell_inv_step (h₀ h : LazyHeap) (c : Nat) (a : access)
    (hinv : cell_inv h₀ h c) : cell_inv h₀ (step h a) c := by
  cases a with
  | vdata s =>
      cases s with
      | owning b => exact hinv
      | viewing b => exact hinv
      | lazy c' => exact cell_inv_force h₀ h c c' hinv
  | vsize s =>
      cases s with
      | owning b => exact hinv
      | viewing b => exact hinv
      | lazy c' => exact cell_inv_force h₀ h c c' hinv

theorem cell_inv_run (h₀ h : LazyHeap) (c : Nat) (ops : List access)
    (hinv : cell_inv h₀ h c) : cell_inv h₀ (run h ops) c := by
  induction ops generalizing h with
  | nil => exact hinv
  | cons a ops ih => exact ih (step h a) (cell_inv_step h₀ h c a hinv)

theorem force_value (h₀ h : LazyHeap) (c : Nat) (hinv : cell_inv h₀ h c) :
    (force h c).1 = h₀.thunk c := by
  obtain ⟨ht, hcase⟩ := hinv
  rcases hcase with ⟨hn, _⟩ | ⟨hs, _⟩
  · simp [force, hn, ht]
  · simp [force, hs]

/-- C5: a Lazy stash's deferred backing computation runs at most once over any
sequence of accessor calls (each possibly through a different copy sharing the
cell), and every `data`/`size` access after any such sequence observes the one
memoized result of the computation. -/
theorem lazy_computation_runs_once (h : LazyHeap) (c : Nat) (ops : List access)
    (hcache : h.cache c = none) (hruns : h.runs c = 0) :
    (run h ops).runs c ≤ 1 ∧
      (data (.lazy c) (run h ops)).1 = h.thunk c ∧
      (size (.lazy c) (run h ops)).1 = (h.thunk c).length := by
  have hinv := cell_inv_run h h c ops (cell_inv_init h c hcache hruns)
  refine ⟨?_, ?_, ?_⟩
  · rcases hinv.2 with ⟨_, hr⟩ | ⟨_, hr⟩ <;> omega
  · simpa [data] using force_value h (run h ops) c hinv
  · simp only [size]
    rw [force_value h (run h ops) c hinv]

/-- Witness for C5 at a concrete heap, cell and access sequence. -/
theorem lazy_computation_runs_once_witness :
    demoHeap.cache 0 = none ∧ demoHeap.runs 0 = 0 ∧
      ((run demoHeap [.vdata (.lazy 0), .vsize (.lazy 0), .vdata (.lazy 0)]).runs 0 ≤ 1 ∧
        (data (.lazy 0)
            (run demoHeap [.vdata (.lazy 0), .vsize (.lazy 0), .vdata (.lazy 0)])).1 =
          demoHeap.thunk 0 ∧
        (size (.lazy 0)
            (run demoHeap [.vdata (.lazy 0), .vsize (.lazy 0), .vdata (.lazy 0)])).1 =
          (demoHeap.thunk 0).length) :=
  ⟨rfl, rfl, lazy_computation_runs_once demoHeap 0 _ rfl rfl⟩

/-- C7: `data` and `size` are defined and consistent on every ownership
variant — `size` always answers the length of what `data` answers and both
leave the heap in the same state — and the stash produced by `empty` has size
`0` (and a well-defined, empty `data`). -/
theorem accessors_defined_empty_zero (s : variant_t) (h : LazyHeap) :
    (size s h).1 = (data s h).1.length ∧ (size s h).2 = (data s h).2 ∧
      size empty h = (0, h) ∧ data empty h = ([], h) := by
  refine ⟨?_, ?_, rfl, rfl⟩ <;> cases s <;> simp [size, data, empty]

end stash

namespace events

/-- C1: the blocking firing operation invokes every currently registered
listener exactly once, in order — the trace carries one entry per registered
listener, so no listener is skipped because an earlier one answered true —
and the aggregate veto is the OR of all the answers; in particular, on the
concrete slot whose listeners answer `[false, true, false]` all three
listeners execute and the result is `true`. -/
theorem fire_blocking_runs_every_listener {α : Type} (s : slot α Bool) (a : α) :
    ((fire_blocking s a).2.1.map fun p => p.1) = (s.listeners.map fun l => l.id) ∧
      (fire_blocking s a).1 = ((s.listeners.map fun l => l.fn a).any fun b => b) ∧
      ((fire_blocking s a).1 = true ↔ ∃ l ∈ s.listeners, l.fn a = true) ∧
      fire_blocking demoBlockSlot () =
        (true, [(0, false), (1, true), (2, false)], demoBlockSlot) := by
  refine ⟨?_, ?_, ?_, rfl⟩
  · simp [fire_blocking, fire]
  · simp only [fire_blocking, fire]
    induction s.listeners with
    | nil => rfl
    | cons l ls ih => simp_all
  · simp only [fire_blocking, fire]
    induction s.listeners with
    | nil => simp
    | cons l ls ih => by_cases hl : l.fn a = true <;> simp_all

theorem holds_after_fire_oneshot {α β : Type} (s : slot α β) (a : α) (i : Nat)
    (hone : ∀ l ∈ s.listeners, l.id = i → l.one_shot = true) :
    holds i (fire s a).2 = 0 := by
  simp only [holds, fire, List.countP_eq_zero]
  intro l hl
  rw [List.mem_filter] at hl
  simp only [decide_eq_true_eq]
  intro hid
  have := hone l hl.1 hid
  rw [this] at hl
  simp at hl

theorem fire_trace_calls {α β : Type} (s : slot α β) (a : α) (i : Nat) :
    (fire s a).1.countP (fun p => p.1 = i) = holds i s := by
  simp only [fire, holds]
  induction s.listeners with
  | nil => rfl
  | cons l ls ih => simp_all [List.countP_cons]

theorem one_shot_preserved {α β : Type} (s : slot α β) (a : α) (i : Nat)
    (hone : ∀ l ∈ s.listeners, l.id = i → l.one_shot = true) :
    ∀ l ∈ (fire s a).2.listeners, l.id = i → l.one_shot = true := by
  intro l hl
  simp only [fire] at hl
  rw [List.mem_filter] at hl
  exact hone l hl.1

theorem calls_le_holds {α β : Type} (i : Nat) (s : slot α β) (args : List α)
    (hone : ∀ l ∈ s.listeners, l.id = i → l.one_shot = true) :
    calls_to i (fire_many s args).1 ≤ holds i s := by
  induction args generalizing s with
  | nil => simp [fire_many, calls_to]
  | cons a args ih =>
      have hzero := holds_after_fire_oneshot s a i hone
      have hrest := ih (fire s a).2 (one_shot_preserved s a i hone)
      rw [hzero] at hrest
      have hsplit : calls_to i (fire_many s (a :: args)).1 =
          (fire s a).1.countP (fun p => p.1 = i) + calls_to i (fire_many (fire s a).2 args).1 := by
        simp [fire_many, calls_to]
      rw [hsplit, fire_trace_calls]
      omega

theorem once_holds {α β : Type} (s : slot α β) (f : α → β) (hwf : wf s) :
    holds s.next_id (once s f) = 1 ∧
      ∀ l ∈ (once s f).listeners, l.id = s.next_id → l.one_shot = true := by
  constructor
  · simp only [holds, once, List.countP_append]
    have hz : s.listeners.countP (fun l => l.id = s.next_id) = 0 := by
      rw [List.countP_eq_zero]
      intro l hl
      have := hwf l hl
      simp only [decide_eq_true_eq]
      omega
    rw [hz]
    simp
  · intro l hl _
    simp only [once, List.mem_append, List.mem_singleton] at hl
    rcases hl with hl | hl
    · have := hwf l hl
      omega
    · rw [hl]

/-- C6: firing a slot invokes the currently registered listeners in
registration order (a listener registered by `add` fires after all earlier
registrations), and a listener registered with `once` is invoked at most one
time in total over any number of later fires. -/
theorem fire_order_and_once_total {α β : Type} (s : slot α β) (f g : α → β)
    (a : α) (args : List α) (hwf : wf s) :
    ((fire (add s g).2 a).1.map fun p => p.1) =
      (s.listeners.map fun l => l.id) ++ [s.next_id] ∧
      calls_to s.next_id (fire_many (once s f) args).1 ≤ 1 := by
  constructor
  · simp [add, fire]
  · obtain ⟨hhold, hone⟩ := once_holds s f hwf
    have := calls_le_holds s.next_id (once s f) args hone
    omega

theorem demoSlot_wf : wf demoSlot := by
  intro l hl
  simp only [demoSlot, List.mem_singleton] at hl
  rw [hl]
  decide

/-- Witness for C6 at a concrete slot, callbacks and fire sequence. -/
theorem fire_order_once_witness :
    wf demoSlot ∧
      (((fire (add demoSlot fun x => x + 1).2 2).1.map fun p => p.1) =
          (demoSlot.listeners.map fun l => l.id) ++ [demoSlot.next_id] ∧
        calls_to demoSlot.next_id (fire_many (once demoSlot fun _ => 5) [1, 2, 3]).1 ≤ 1) :=
  ⟨demoSlot_wf,
    fire_order_and_once_total demoSlot (fun _ => 5) (fun x => x + 1) 2 [1, 2, 3] demoSlot_wf⟩

end events

namespace application

theorem guarded_on_main (main : Nat) {σ α : Type} (body : σ → α × σ) (st : σ) :
    guarded main body main st = ((body st).1, (body st).2, [dispatch_event.ran_in_place]) := by
  rw [guarded]
  simp [thread_safe]

/-- C3: a public operation on main-loop-owned state, in the guard-and-forward
shape of the source, executed on the main-loop thread runs its body
synchronously in place without enqueuing; executed from any other thread it
equals `dispatch` applied to itself, the run is observed as an enqueue
followed by an in-place run of the body on the main thread, and the caller
receives exactly the result of the equivalent direct main-thread call. -/
theorem guarded_op_main_loop {σ α : Type} (main tid : Nat) (body : σ → α × σ) (st : σ) :
    (thread_safe main tid = true →
        guarded main body tid st = ((body st).1, (body st).2, [dispatch_event.ran_in_place])) ∧
      (thread_safe main tid = false →
        guarded main body tid st = dispatch main tid (fun t s => guarded main body t s) st ∧
          (guarded main body tid st).2.2 =
            [dispatch_event.enqueued, dispatch_event.ran_in_place]) ∧
      (guarded main body tid st).1 = (body st).1 ∧
      (guarded main body tid st).2.1 = (body st).2 := by
  by_cases h : thread_safe main tid = true
  · have hmt : main = tid := by simpa [thread_safe] using h
    subst hmt
    have hg := guarded_on_main main body st
    refine ⟨fun _ => hg, ?_, ?_, ?_⟩
    · intro hfalse
      rw [h] at hfalse
      cases hfalse
    · rw [hg]
    · rw [hg]
  · have h' : thread_safe main tid = false := by
      cases hts : thread_safe main tid
      · rfl
      · exact absurd hts h
    have hmain := guarded_on_main main body st
    have hg : guarded main body tid st =
        ((body st).1, (body st).2, [dispatch_event.enqueued, dispatch_event.ran_in_place]) := by
      rw [guarded]
      simp only [h', Bool.false_eq_true, if_false, hmain]
    have hd : dispatch main tid (fun t s => guarded main body t s) st =
        ((body st).1, (body st).2, [dispatch_event.enqueued, dispatch_event.ran_in_place]) := by
      simp only [dispatch, h', Bool.false_eq_true, if_false, hmain]
    refine ⟨?_, ?_, ?_, ?_⟩
    · intro htrue
      rw [h'] at htrue
      cases htrue
    · exact fun _ => ⟨hg.trans hd.symm, by rw [hg]⟩
    · rw [hg]
    · rw [hg]

end application

namespace rflpp

theorem read_call_envelope (id : Nat) (name : String) (params : Generic)
    (hid : id < uint64_bound) :
    read_function_data (call_envelope id name params) = some ⟨id, name, params⟩ := by
  have h0 : (0 : Int) ≤ (id : Int) := Int.ofNat_nonneg id
  have h1 : (id : Int) < (uint64_bound : Int) := by exact_mod_cast hid
  simp [call_envelope, read_function_data, get_field, h0, h1]

theorem read_result_envelope (id : Nat) (result : Generic)
    (hid : id < uint64_bound) :
    read_result_data (result_envelope id result) = some ⟨id, result⟩ := by
  have h0 : (0 : Int) ≤ (id : Int) := Int.ofNat_nonneg id
  have h1 : (id : Int) < (uint64_bound : Int) := by exact_mod_cast hid
  simp [result_envelope, read_result_data, get_field, h0, h1]

theorem result_envelope_not_call (id : Nat) (result : Generic) :
    read_function_data (result_envelope id result) = none := by
  simp [result_envelope, read_function_data, get_field]

theorem parse_as_function_some (j : Generic) :
    parse_as_function (some j) = read_function_data j := rfl

theorem parse_as_result_some (j : Generic) :
    parse_as_result (some j) = read_result_data j := rfl

theorem parse_of_function (data : wire) (d : function_data)
    (hf : parse_as_function data = some d) : parse data = .function_call d := by
  unfold parse
  rw [hf]

theorem parse_of_result (data : wire) (d : result_data)
    (hf : parse_as_function data = none) (hr : parse_as_result data = some d) :
    parse data = .call_result d := by
  unfold parse
  rw [hf, hr]

/-- C4: `serializer::parse` is total and yields exactly one of the three
variants: input that neither reads as a call envelope nor as a result
envelope (including a non-JSON string, `none`) yields the unrecognized
(`std::monostate`) variant rather than an error, a readable call envelope
yields its `function_data`, a readable result envelope yields its
`result_data`; and on the well-formed envelopes of the `ReflType` shapes the
corresponding record carries exactly the id, name, params, and result put
into the envelope. -/
theorem parse_total_and_envelopes (data : wire) (id : Nat) (name : String)
    (params result : Generic) (hid : id < uint64_bound) :
    (parse data = .unrecognized ↔
        parse_as_function data = none ∧ parse_as_result data = none) ∧
      (∀ d, parse_as_function data = some d → parse data = .function_call d) ∧
      (∀ d, parse_as_function data = none → parse_as_result data = some d →
        parse data = .call_result d) ∧
      parse (some (call_envelope id name params)) = .function_call ⟨id, name, params⟩ ∧
      parse (some (result_envelope id result)) = .call_result ⟨id, result⟩ := by
  refine ⟨?_, ?_, ?_, ?_, ?_⟩
  · unfold parse
    cases hf : parse_as_function data <;> cases hr : parse_as_result data <;> simp [hf, hr]
  · exact fun d hf => parse_of_function data d hf
  · exact fun d hf hr => parse_of_result data d hf hr
  · exact parse_of_function _ _
      ((parse_as_function_some _).trans (read_call_envelope id name params hid))
  · exact parse_of_result _ _
      ((parse_as_function_some _).trans (result_envelope_not_call id result))
      ((parse_as_result_some _).trans (read_result_envelope id result hid))

/-- Witness for C4 at the non-JSON input and concrete envelopes. -/
theorem parse_total_witness :
    3 < uint64_bound ∧
      ((parse none = .unrecognized ↔
          parse_as_function none = none ∧ parse_as_result none = none) ∧
        (∀ d, parse_as_function none = some d → parse none = .function_call d) ∧
        (∀ d, parse_as_function none = none → parse_as_result none = some d →
          parse none = .call_result d) ∧
        parse (some (call_envelope 3 "echo" (.array [.number 1, .number 2]))) =
          .function_call ⟨3, "echo", .array [.number 1, .number 2]⟩ ∧
        parse (some (result_envelope 3 .null)) = .call_result ⟨3, .null⟩) :=
  ⟨by decide,
    parse_total_and_envelopes none 3 "echo" (.array [.number 1, .number 2]) .null (by decide)⟩

end rflpp

namespace scheme

/-- C2 counterexample: `request::headers` does not case-normalize. On a
platform header enumeration carrying the two names `X-Custom` and `x-custom`
— names that differ only in letter case — the returned map stores them under
two distinct keys, not one and the same key. -/
theorem headers_keys_keep_case_cex :
    same_name_modulo_case "X-Custom" "x-custom" = true ∧
      "X-Custom" ≠ "x-custom" ∧
      headers [("X-Custom", "1"), ("x-custom", "2")] =
        [("X-Custom", "1"), ("x-custom", "2")] := by
  refine ⟨by decide, by decide, rfl⟩

theorem emplace_find (m : List (String × String)) (a b k : String) :
    (emplace m a b).find? (fun p => p.1 = k) =
      ((m.find? fun p => p.1 = k).or (if a = k then some (a, b) else none)) := by
  unfold emplace
  by_cases hany : (m.any fun p => p.1 = a) = true
  · rw [if_pos hany]
    by_cases hak : a = k
    · subst hak
      have hsome : (m.find? fun p => p.1 = a).isSome := by
        rw [List.find?_isSome]
        simpa [List.any_eq_true] using hany
      obtain ⟨x, hx⟩ := Option.isSome_iff_exists.mp hsome
      rw [hx]
      simp
    · simp [hak, Option.or_none]
  · rw [if_neg hany, List.find?_append]
    congr 1
    by_cases hak : a = k <;> simp [hak]

theorem headers_fold_find (platform acc : List (String × String)) (k : String) :
    (platform.foldl (fun m p => emplace m p.1 p.2) acc).find? (fun p => p.1 = k) =
      ((acc.find? fun p => p.1 = k).or (platform.find? fun p => p.1 = k)) := by
  induction platform generalizing acc with
  | nil => simp [Option.or_none]
  | cons hd tl ih =>
      rw [List.foldl_cons, ih, emplace_find]
      by_cases hak : hd.1 = k
      · rw [List.find?_cons_of_pos _ (by simpa using hak), if_pos hak]
        rw [Option.or_assoc]
        simp
      · rw [List.find?_cons_of_neg _ (by simpa using hak), if_neg hak]
        simp [Option.or_none]

/-- C2 amended: the header map `request::headers` returns keys headers by the
exact, case-preserved platform-supplied name: looking a name up in the
returned map finds exactly the first platform pair carrying that exact name
(so names that differ only in letter case live under distinct keys, as the
counterexample shows, and any case normalization observed comes from the
platform layer, not from `headers`). -/
theorem headers_exact_name_lookup (platform : List (String × String)) (k : String) :
    (headers platform).find? (fun p => p.1 = k) = platform.find? (fun p => p.1 = k) := by
  have h := headers_fold_find platform [] k
  simpa [headers] using h

end scheme

namespace bindings

/-- C8: `saucer_handle::on_message` consults the base webview handler first
and, when it consumes the message, returns `true` with no user callback
invoked; otherwise the plain message callback is invoked if set; otherwise
the with-argument callback is invoked exactly when both the callback and its
argument pointer are non-null; and when nothing consumes the message the
answer is `false`. -/
theorem on_message_dispatch_order (h : saucer_handle) (message : String) :
    (h.base_on_message message = true → on_message h message = (true, [.base])) ∧
      (h.base_on_message message = false →
        (∀ cb, h.m_on_message = some cb →
          on_message h message = (cb message, [.base, .plain])) ∧
        (h.m_on_message = none →
          (∀ cb arg, h.m_on_message_with_arg = some cb → h.m_on_message_arg = some arg →
            on_message h message = (cb message arg, [.base, .with_arg])) ∧
          ((h.m_on_message_with_arg = none ∨ h.m_on_message_arg = none) →
            on_message h message = (false, [.base])))) := by
  constructor
  · intro hb
    simp [on_message, hb]
  · intro hb
    refine ⟨?_, ?_⟩
    · intro cb hcb
      simp [on_message, hb, hcb]
    · intro hnone
      refine ⟨?_, ?_⟩
      · intro cb arg hcb harg
        simp [on_message, hb, hnone, hcb, harg]
      · rintro (hno | hno) <;>
          cases hwa : h.m_on_message_with_arg <;> cases ha : h.m_on_message_arg <;>
          simp_all [on_message, hb, hnone]

end bindings

namespace webview

/-- C9: `webview::execute` run on the main thread before the DOM has finished
loading appends the script to the pending queue and hands nothing to
`runJavaScript` — the code is queued, not executed and not dropped. -/
theorem execute_queues_before_dom (st : exec_state) (code : String)
    (hdom : st.dom_loaded = false) :
    execute st code = { st with pending := st.pending ++ [code] } ∧
      (execute st code).ran = st.ran ∧
      (execute st code).pending = st.pending ++ [code] := by
  refine ⟨?_, ?_, ?_⟩ <;> simp [execute, hdom]

/-- Witness for C9 at a concrete pre-DOM-ready state. -/
theorem execute_queues_witness :
    demoExec.dom_loaded = false ∧
      (execute demoExec "probe" = { demoExec with pending := demoExec.pending ++ ["probe"] } ∧
        (execute demoExec "probe").ran = demoExec.ran ∧
        (execute demoExec "probe").pending = demoExec.pending ++ ["probe"]) :=
  ⟨rfl, execute_queues_before_dom demoExec "probe" rfl⟩

/-- C10: `webview::handle_scheme` keeps at most one resolver per scheme name.
Registering a name that is already present returns without installing the new
resolver and leaves the whole state — registry and installations — unchanged;
and registration never makes a duplicate name in a registry whose names were
distinct. -/
theorem handle_scheme_keeps_existing (st : scheme_state) (name : String)
    (hreg : contains st.schemes name = true) :
    handle_scheme st name = st ∧
      (∀ st' : scheme_state, (scheme_names st').Nodup →
        (scheme_names (handle_scheme st' name)).Nodup) := by
  constructor
  · simp [handle_scheme, hreg]
  · intro st' hnd
    by_cases hc : contains st'.schemes name = true
    · simpa [handle_scheme, hc] using hnd
    · have hnotin : name ∉ scheme_names st' := by
        intro hmem
        apply hc
        simp only [contains, List.any_eq_true]
        simp only [scheme_names, List.mem_map] at hmem
        obtain ⟨p, hp, hpn⟩ := hmem
        exact ⟨p, hp, by simp [hpn]⟩
      simp only [handle_scheme, hc, if_false, Bool.false_eq_true]
      simp only [scheme_names, List.map_append]
      rw [List.nodup_append]
      refine ⟨hnd, List.nodup_singleton _, ?_⟩
      intro x hx hx'
      simp only [List.map_cons, List.map_nil, List.mem_singleton] at hx'
      exact hnotin (hx' ▸ hx)

/-- Witness for C10 at the concrete registry already holding `saucer`. -/
theorem handle_scheme_keeps_witness :
    contains demoSchemes.schemes "saucer" = true ∧
      (handle_scheme demoSchemes "saucer" = demoSchemes ∧
        (∀ st' : scheme_state, (scheme_names st').Nodup →
          (scheme_names (handle_scheme st' "saucer")).Nodup)) :=
  ⟨rfl, handle_scheme_keeps_existing demoSchemes "saucer" rfl⟩

end webview

end Saucer
